import Mathlib

/-!
Formal model of the serialization and storage subsystem of evilsocket/zippo:
  - src/agent/serialization/xml.rs   (invocation parser and serializers)
  - src/agent/state/storage.rs       (typed keyed storage)

Strings are modelled as lists of Unicode scalar values (`List Char`).  Rust's
scanner works with byte indices; on ASCII text (all inputs appearing in the
claims are ASCII) byte indices and scalar indices coincide, so `List Char`
positions model the Rust positions faithfully there.  Rust slice expressions
`&s[a..b]` panic when `a > b`; the one slice in `parse_model_response` whose
bounds are not provably ordered (the payload slice) is modelled with an
explicit failure case, while slices whose bounds are provably ordered use the
total `sliceTotal`.

`Invocation` itself is declared in a module of the repository that is not part
of the two given files; its shape (action name, optional attribute mapping,
optional payload, constructor `Invocation::new`) is modelled from the spec's
data model section and from how `xml.rs` constructs and reads it.

Rust's `HashMap<String, String>` has no observable iteration order; it is
modelled as an insertion-ordered association list with overwrite-in-place
insertion (a deterministic representative).  `IndexMap` (storage) genuinely is
an insertion-ordered map with `insert` keeping the position of an existing key
and `shift_remove` preserving the order of the remaining entries, which the
same representation models exactly.
-/

set_option maxHeartbeats 1000000
set_option linter.unusedVariables false

namespace Zippo

abbrev Str := List Char

/-- The set of characters `char::is_whitespace` recognises, restricted to the
ASCII range (the Unicode-only whitespace code points play no role in any claim). -/
def wsChar (c : Char) : Bool :=
  c == ' ' || c == '\t' || c == '\n' || c == '\x0b' || c == '\x0c' || c == '\r'

/-- Rust `str::trim`: remove whitespace from both ends. -/
def trimChars (l : Str) : Str :=
  ((l.dropWhile wsChar).reverse.dropWhile wsChar).reverse

/-- Rust `str::find(char predicate)`: index of the first character satisfying `p`. -/
def findChar (p : Char → Bool) : Str → Option Nat
  | [] => none
  | c :: cs => if p c then some 0 else (findChar p cs).map (· + 1)

/-- `beginsWith pat s` is true when `pat` is a prefix of `s`. -/
def beginsWith : Str → Str → Bool
  | [], _ => true
  | _ :: _, [] => false
  | a :: as, b :: bs => a == b && beginsWith as bs

/-- Rust `str::find(&str)`: index of the first occurrence of `pat` as a substring. -/
def findSub (pat : Str) : Str → Option Nat
  | [] => if beginsWith pat [] then some 0 else none
  | c :: cs => if beginsWith pat (c :: cs) then some 0 else (findSub pat cs).map (· + 1)

/-- Rust slice `&s[a..b]` in the cases where `a ≤ b ≤ s.len()` is provable. -/
def sliceTotal (l : Str) (a b : Nat) : Str := (l.drop a).take (b - a)

/-- One detected action call.  Modelled from the spec: `Invocation` is declared
in `src/agent/serialization/mod.rs`, which is not among the given files; the
spec's data model fixes its fields: action name, optional attribute mapping,
optional payload.  The attribute `HashMap` is modelled as an association list. -/
structure Invocation where
  action : Str
  attributes : Option (List (Str × Str))
  payload : Option Str
  deriving DecidableEq, Repr

/-- Modelled from the spec: `Invocation::new(action, attributes, payload)`. -/
def Invocation.new (action : Str) (attributes : Option (List (Str × Str)))
    (payload : Option Str) : Invocation :=
  ⟨action, attributes, payload⟩

/-- `HashMap::insert`: overwrite the value when the key is present, otherwise add
the pair (position chosen: in place / at the end — `HashMap` itself is unordered). -/
def assocUpsert (m : List (Str × Str)) (k v : Str) : List (Str × Str) :=
  match m with
  | [] => [(k, v)]
  | kv :: tl => if kv.1 = k then (k, v) :: tl else kv :: assocUpsert tl k v

/-- One match attempt of the regex `(([^=]+)="([^"]+)")` at the start of `s`
(the XML ATTRIBUTES PARSER regex of xml.rs).  The character classes `[^=]+` and
`[^"]+` are greedy and cannot skip their stop character, so a backtracking-free
maximal-run reading is exact: take the maximal nonempty run of non-`=`
characters, require `="`, take the maximal nonempty run of non-`"` characters,
require `"`.  Returns the two capture groups and the length of the whole match. -/
def attrMatchAt (s : Str) : Option ((Str × Str) × Nat) :=
  let key := s.takeWhile (fun c => c != '=')
  if key = [] then none
  else
    match s.drop key.length with
    | '=' :: '"' :: rest2 =>
      let v := rest2.takeWhile (fun c => c != '"')
      if v = [] then none
      else
        match rest2.drop v.length with
        | '"' :: _ => some ((key, v), key.length + 2 + v.length + 1)
        | _ => none
    | _ => none

/-- `Regex::captures_iter`: successive non-overlapping leftmost matches.  `fuel`
bounds the scan; `xmlCaptures` supplies `s.length + 1`, which always suffices
because every step consumes at least one character. -/
def xmlCapturesAux : Nat → Str → List (Str × Str)
  | 0, _ => []
  | fuel + 1, s =>
    match attrMatchAt s with
    | some (kv, len) => kv :: xmlCapturesAux fuel (s.drop len)
    | none =>
      match s with
      | [] => []
      | _ :: tl => xmlCapturesAux fuel tl

/-- All captures of the attribute regex over `s`, in order of appearance. -/
def xmlCaptures (s : Str) : List (Str × Str) :=
  xmlCapturesAux (s.length + 1) s

/-- The attribute-collection loop of `parse_model_response`: each capture's key
and value are trimmed and inserted into the map (later duplicates overwrite).
The Rust guard `caps.len() == 4` is identically true — the regex has three
capture groups plus the whole match — and is therefore not modelled. -/
def buildAttrs (caps : List (Str × Str)) : List (Str × Str) :=
  caps.foldl (fun attrs kv => assocUpsert attrs (trimChars kv.1) (trimChars kv.2)) []

/-- Outcome of one iteration of the scanning loop of `parse_model_response`. -/
inductive StepOut where
  | done
  | badSlice
  | skipTo (next : Nat)
  | matched (next : Nat) (inv : Invocation)
  deriving DecidableEq, Repr

/-- One iteration of the `while current < model_response_size` loop of
`parse_model_response` (xml.rs lines 127-192), at cursor `current`:
read to the next `<`; find the tag-name terminator (first `>` or space); find
the first `>`; advance `current` by `tag_close_idx + tag_name.len()`; search
for the literal closing tag; on success parse attributes (when a space follows
the name) and payload and emit the invocation, otherwise skip one further
character.  The payload slice `&ptr[tag_close_idx + 1..tag_closing_idx]`
panics when its start exceeds its end, which `badSlice` records; the slices
for the tag name and the attribute substring have provably ordered bounds. -/
def parseStep (s : Str) (current : Nat) : StepOut :=
  match findChar (fun c => c == '<') (s.drop current) with
  | none => .done
  | some tagOpenIdx =>
    let cur1 := current + tagOpenIdx
    let ptr := s.drop cur1
    match findChar (fun c => c == '>' || c == ' ') ptr with
    | none => .skipTo (cur1 + 1)
    | some termIdx =>
      let cur2 := cur1 + termIdx
      let tagName := sliceTotal ptr 1 termIdx
      match findChar (fun c => c == '>') ptr with
      | none => .skipTo (cur2 + 1)
      | some closeIdx =>
        let cur3 := cur2 + closeIdx + tagName.length
        let closing := '<' :: '/' :: (tagName ++ ['>'])
        match findSub closing ptr with
        | none => .skipTo (cur3 + 1)
        | some closingIdx =>
          if closeIdx + 1 ≤ closingIdx then
            let attributes : Option (List (Str × Str)) :=
              if ptr.get? termIdx = some ' ' then
                some (buildAttrs (xmlCaptures (sliceTotal ptr (termIdx + 1) closeIdx)))
              else none
            let afterTagClose := sliceTotal ptr (closeIdx + 1) closingIdx
            let payload : Option Str :=
              match afterTagClose with
              | [] => none
              | c :: _ => if c != '<' then some (trimChars afterTagClose) else none
            .matched cur3 (Invocation.new tagName attributes payload)
          else .badSlice

/-- The scanning loop.  Every iteration strictly increases the cursor, so the
fuel `s.length + 1` supplied by `parse_model_response` is never exhausted;
the fuel-out case is kept distinct from the slice panic. -/
def parseLoop (s : Str) : Nat → Nat → List Invocation → Except String (List Invocation)
  | 0, _, _ => .error "fuel exhausted"
  | fuel + 1, current, acc =>
    if current < s.length then
      match parseStep s current with
      | .done => .ok acc
      | .badSlice => .error "slice index start exceeds end"
      | .skipTo next => parseLoop s fuel next acc
      | .matched next inv => parseLoop s fuel next (acc ++ [inv])
    else .ok acc

/-- `parse_model_response` (xml.rs lines 120-196).  `Except.error` marks a
panic of the Rust code; `Ok(invocations)` is `Except.ok`. -/
def parse_model_response (s : Str) : Except String (List Invocation) :=
  parseLoop s (s.length + 1) 0 []

/-- The attribute clause `serialize_invocation` emits:
one ` key="value"` fragment per attribute pair, in order. -/
def attrClause : List (Str × Str) → Str
  | [] => []
  | kv :: rest => ((' ' :: kv.1) ++ ('=' :: '"' :: kv.2) ++ ['"']) ++ attrClause rest

/-- `serialize_invocation` (xml.rs lines 18-36):
`<action` + attribute clause (omitted when absent) + `>` + payload (empty when
absent) + `</action>`.  Values are emitted unescaped, as in the source. -/
def serialize_invocation (inv : Invocation) : Str :=
  let xml1 := '<' :: inv.action
  let xml2 :=
    match inv.attributes with
    | some attrs =>
      attrs.foldl (fun xml kv => xml ++ ((' ' :: kv.1) ++ ('=' :: '"' :: kv.2) ++ ['"'])) xml1
    | none => xml1
  xml2 ++ ('>' :: (match inv.payload with | some d => d | none => []))
    ++ ('<' :: '/' :: inv.action) ++ ['>']

/-! ### Storage (src/agent/state/storage.rs) and its serializer (xml.rs) -/

/-- The storage disciplines.  `Untagged`, `Tagged` and `CurrentPrevious` are the
variants declared by storage.rs lines 21-29.  `Completion` is modelled from the
spec ("key/value map where each value also carries a completion flag"): xml.rs's
`serialize_storage` matches on `StorageType::Completion`, but the given
storage.rs declares no such variant, so its declaration is missing from the
sources and is supplied here from the spec's discipline list. -/
inductive StorageType where
  | Untagged
  | Tagged
  | CurrentPrevious
  | Completion
  deriving DecidableEq, Repr

/-- A stored value.  `data` is the field of storage.rs's `Entry`.  `complete` is
modelled from the spec ("data string plus, for `Completion`, a completion
flag"): xml.rs's `serialize_storage` reads `entry.complete`, but the given
storage.rs declares no such field. -/
structure Entry where
  data : String
  complete : Bool
  deriving DecidableEq, Repr

/-- `Entry::new(data)` of storage.rs, which sets only `data`; the modelled
completion flag starts out false. -/
def Entry.new (data : String) : Entry := ⟨data, false⟩

def CURRENT_TAG : String := "__current"

def PREVIOUS_TAG : String := "__previous"

/-- `IndexMap::insert`: replace the value in place when the key is present,
otherwise append the pair at the end. -/
def imInsert (m : List (String × Entry)) (k : String) (v : Entry) : List (String × Entry) :=
  match m with
  | [] => [(k, v)]
  | kv :: tl => if kv.1 = k then (k, v) :: tl else kv :: imInsert tl k v

/-- `IndexMap::shift_remove`: remove the pair with the given key, preserving the
order of the remaining entries, and report the removed value. -/
def imShiftRemove (m : List (String × Entry)) (k : String) :
    Option Entry × List (String × Entry) :=
  match m with
  | [] => (none, [])
  | kv :: tl =>
    if kv.1 = k then (some kv.2, tl)
    else
      let r := imShiftRemove tl k
      (r.1, kv :: r.2)

/-- `IndexMap::get`. -/
def imGet (m : List (String × Entry)) (k : String) : Option Entry :=
  match m with
  | [] => none
  | kv :: tl => if kv.1 = k then some kv.2 else imGet tl k

/-- A named, typed storage.  The `Mutex` wrapper and the log printing of the
Rust code are not modelled: all claims are about the sequential functional
behaviour, and every Rust operation holds the single lock for its whole body. -/
structure Storage where
  name : String
  type_ : StorageType
  inner : List (String × Entry)
  deriving DecidableEq, Repr

/-- `Storage::to_structured_string` (storage.rs lines 62-103).  storage.rs's
`StorageType` has no `Completion` variant, so its `match` has no such arm; the
`Completion` case below is unreachable for storages built against storage.rs
and is given the default `""`. -/
def Storage.to_structured_string (st : Storage) : String :=
  if st.inner.isEmpty then ""
  else
    match st.type_ with
    | .Tagged =>
      (st.inner.foldl (fun xml kv => xml ++ "  - " ++ kv.1 ++ "=" ++ kv.2.data ++ "\n")
        ("<" ++ st.name ++ ">\n")) ++ ("</" ++ st.name ++ ">")
    | .Untagged =>
      (st.inner.foldl (fun xml kv => xml ++ "  - " ++ kv.2.data ++ "\n")
        ("<" ++ st.name ++ ">\n")) ++ ("</" ++ st.name ++ ">")
    | .CurrentPrevious =>
      match imGet st.inner CURRENT_TAG with
      | some current =>
        ("* Current " ++ st.name ++ ": " ++ (trimChars current.data.toList).asString) ++
          (match imGet st.inner PREVIOUS_TAG with
           | some prev => "\n* Previous " ++ st.name ++ ": " ++ (trimChars prev.data.toList).asString
           | none => "")
      | none => ""
    | .Completion => ""

/-- `serialize_storage` (xml.rs lines 58-118).  Identical to
`Storage::to_structured_string` on the three disciplines storage.rs declares,
plus the `Completion` arm: the Untagged line format with every line suffixed
by ` : COMPLETED` or ` : not completed` according to the entry's flag. -/
def serialize_storage (st : Storage) : String :=
  if st.inner.isEmpty then ""
  else
    match st.type_ with
    | .Tagged =>
      (st.inner.foldl (fun xml kv => xml ++ "  - " ++ kv.1 ++ "=" ++ kv.2.data ++ "\n")
        ("<" ++ st.name ++ ">\n")) ++ ("</" ++ st.name ++ ">")
    | .Untagged =>
      (st.inner.foldl (fun xml kv => xml ++ "  - " ++ kv.2.data ++ "\n")
        ("<" ++ st.name ++ ">\n")) ++ ("</" ++ st.name ++ ">")
    | .Completion =>
      (st.inner.foldl (fun xml kv =>
          xml ++ "  - " ++ kv.2.data ++ " : " ++
            (if kv.2.complete then "COMPLETED" else "not completed") ++ "\n")
        ("<" ++ st.name ++ ">\n")) ++ ("</" ++ st.name ++ ">")
    | .CurrentPrevious =>
      match imGet st.inner CURRENT_TAG with
      | some current =>
        ("* Current " ++ st.name ++ ": " ++ (trimChars current.data.toList).asString) ++
          (match imGet st.inner PREVIOUS_TAG with
           | some prev => "\n* Previous " ++ st.name ++ ": " ++ (trimChars prev.data.toList).asString
           | none => "")
      | none => ""

/-- `Storage::add_untagged` (storage.rs lines 133-141): assert the `Untagged`
discipline (`none` models the fatal assertion failure), then insert under the
decimal key `inner.len() + 1`. -/
def add_untagged (st : Storage) (data : String) : Option Storage :=
  match st.type_ with
  | .Untagged =>
    some { st with inner := imInsert st.inner (toString (st.inner.length + 1)) (Entry.new data) }
  | _ => none

/-- `Storage::del_untagged` (storage.rs lines 143-152): assert the `Untagged`
discipline, then shift-remove the decimal key for `pos`, reporting the removed
data. -/
def del_untagged (st : Storage) (pos : Nat) : Option (Option String × Storage) :=
  match st.type_ with
  | .Untagged =>
    let r := imShiftRemove st.inner (toString pos)
    some (r.1.map Entry.data, { st with inner := r.2 })
  | _ => none

/-- `Storage::set_current` (storage.rs lines 154-168): assert the
`CurrentPrevious` discipline, shift-remove the old current, install the new
current, and re-insert the old current (when present) under the previous key. -/
def set_current (st : Storage) (data : String) (verbose : Bool) : Option Storage :=
  match st.type_ with
  | .CurrentPrevious =>
    let r := imShiftRemove st.inner CURRENT_TAG
    let inner2 := imInsert r.2 CURRENT_TAG (Entry.new data)
    let inner3 :=
      match r.1 with
      | some old => imInsert inner2 PREVIOUS_TAG old
      | none => inner2
    some { st with inner := inner3 }
  | _ => none

/-- `Storage::clear` (storage.rs lines 170-173): empty the entries, any
discipline. -/
def Storage.clear (st : Storage) : Storage := { st with inner := [] }

/-- An operation on an `Untagged` storage, for stating properties of operation
sequences. -/
inductive UntaggedOp where
  | add (data : String)
  | del (pos : Nat)
  deriving DecidableEq, Repr

/-- Run a sequence of untagged operations (a failing discipline assertion
aborts the run with `none`). -/
def runUntagged (st : Storage) : List UntaggedOp → Option Storage
  | [] => some st
  | op :: ops =>
    match op with
    | .add d => (add_untagged st d).bind (fun st' => runUntagged st' ops)
    | .del p => (del_untagged st p).bind (fun r => runUntagged r.2 ops)

/-- An operation on a `CurrentPrevious` storage. -/
inductive CPOp where
  | setCur (data : String)
  | wipe
  deriving DecidableEq, Repr

/-- Run a sequence of `set_current` / `clear` operations. -/
def runCP (st : Storage) : List CPOp → Option Storage
  | [] => some st
  | op :: ops =>
    match op with
    | .setCur d => (set_current st d false).bind (fun st' => runCP st' ops)
    | .wipe => runCP st.clear ops

/-! ### Side conditions for the serialization round trip -/

/-- Name condition for the round trip: the scanner delimits a tag name by the
first `>` or space, and the closing-tag search must find the emitted closing
tag first, so the name may contain none of `<`, `>`, space. -/
abbrev goodName (n : Str) : Prop := ∀ c ∈ n, c ≠ '<' ∧ c ≠ '>' ∧ c ≠ ' '

/-- Key condition: nonempty, already trimmed, and free of `=` (the regex key
group is `[^=]+`), `<` and `>`. -/
abbrev goodKey (k : Str) : Prop :=
  k ≠ [] ∧ trimChars k = k ∧ ∀ c ∈ k, c ≠ '=' ∧ c ≠ '<' ∧ c ≠ '>'

/-- Value condition: nonempty, already trimmed, and free of `"` (the regex value
group is `[^"]+`), `<` and `>`. -/
abbrev goodVal (v : Str) : Prop :=
  v ≠ [] ∧ trimChars v = v ∧ ∀ c ∈ v, c ≠ '"' ∧ c ≠ '<' ∧ c ≠ '>'

/-- Attribute condition: the mapping is absent, or nonempty with pairwise
distinct keys and well-formed pairs.  (`Some({})` re-parses as `None`.) -/
abbrev goodAttrs (o : Option (List (Str × Str))) : Prop :=
  o ≠ some [] ∧ ((o.getD []).map Prod.fst).Nodup ∧
    ∀ kv ∈ o.getD [], goodKey kv.1 ∧ goodVal kv.2

/-- Payload condition: absent, or nonempty, already trimmed and free of `<`
(which also rules out payloads containing the closing tag). -/
abbrev goodPayload (o : Option Str) : Prop :=
  o ≠ some [] ∧ trimChars (o.getD []) = o.getD [] ∧ ∀ c ∈ o.getD [], c ≠ '<'

/-- An invocation for which serialize-then-parse provably reproduces the
invocation exactly. -/
abbrev RoundTrippable (inv : Invocation) : Prop :=
  goodName inv.action ∧ goodAttrs inv.attributes ∧ goodPayload inv.payload

/-- Keys of a `CurrentPrevious` inner map stay within the two reserved tags. -/
def keysOK (m : List (String × Entry)) : Bool :=
  m.all (fun kv => kv.1 == CURRENT_TAG || kv.1 == PREVIOUS_TAG)

/-! ## Theorems -/

/-- Claim C1: false — the code panics.  On the input `<a </a>` the name
terminator is the space (index 2), the first `>` is at index 6, but the literal
closing tag `</a>` already occurs at index 3, so the payload slice
`&ptr[7..3]` has start greater than end and the Rust code panics; the parse is
not total. -/
theorem claim_C1_panics :
    parse_model_response "<a </a>".toList = .error "slice index start exceeds end" := rfl

/-- Counterexample to claim C2: in `<a>zz<b>x</b></a>` the tag `a` is matched
with payload `zz<b>x</b>` (the whole input is its matched span), yet the
nested tag `<b>` is afterwards recovered as a second Invocation in the same
pass — the cursor (which only advances to index 5, inside the span) does not
skip the matched span. -/
theorem claim_C2_counterexample :
    parse_model_response "<a>zz<b>x</b></a>".toList
      = .ok [⟨"a".toList, none, some "zz<b>x</b>".toList⟩,
             ⟨"b".toList, none, some "x".toList⟩] := rfl

/-- Claim C2, amended: after matching a tag the cursor advances by
`tag_name_term_idx + tag_close_idx + tag_name.len()` — for `<a><b>x</b></a>`
to index 5, strictly inside the matched span rather than past the closing tag.
In this documented example the nested `<b>` is still not separately recovered
(the leftover `</b>` fragment parses as no invocation), so the result is the
single Invocation `a` with absent payload; but span-internal tags are not
skipped in general (see the counterexample). -/
theorem claim_C2_amended :
    parseStep "<a><b>x</b></a>".toList 0 = .matched 5 ⟨"a".toList, none, none⟩
    ∧ parse_model_response "<a><b>x</b></a>".toList = .ok [⟨"a".toList, none, none⟩] :=
  ⟨rfl, rfl⟩

/-- Counterexample to claim C3: the input `<a><b>x</b>` starts with an opening
tag `<a>` that has no closing tag; abandoning it advances the cursor to index 6
(not by one character, which would reach index 1), jumping over the start of
`<b>x</b>` — a later well-formed invocation that parses on its own — so the
whole parse returns no invocations at all. -/
theorem claim_C3_counterexample :
    parse_model_response "<a><b>x</b>".toList = .ok []
    ∧ parse_model_response "<b>x</b>".toList = .ok [⟨"b".toList, none, some "x".toList⟩] :=
  ⟨rfl, rfl⟩

/-- Claim C3, amended: when an opening tag is abandoned (no matching literal
closing tag, or no name terminator, or no `>`), the cursor strictly increases —
by exactly one character only when no `>` or space follows the `<`, and by
`tag_name_term_idx + tag_close_idx + tag_name.len() + 1` when the closing tag
is missing — so scanning always makes forward progress; because the advance
can exceed one character, later well-formed invocations can be lost. -/
theorem claim_C3_amended (s : Str) (current next : Nat)
    (h : parseStep s current = .skipTo next) : current < next := by
  unfold parseStep at h
  dsimp only at h
  split at h
  · simp at h
  · split at h
    · injection h with h2; omega
    · split at h
      · injection h with h2; omega
      · split at h
        · injection h with h2; omega
        · split at h
          · simp at h
          · simp at h

/-- Witness for the amended claim C3 at a concrete input: on `<a>x` at cursor 0
the step abandons the unterminated `<a>` and skips to index 6. -/
theorem claim_C3_witness :
    parseStep "<a>x".toList 0 = .skipTo 6 ∧ (0 : Nat) < 6 :=
  ⟨by decide, claim_C3_amended "<a>x".toList 0 6 (by decide)⟩

/-- Claim C4: false — position keys ARE reused after a removal.  storage.rs
computes the key of a new untagged entry as `inner.len() + 1`, so after
`add "x"; add "y"; del 1` the surviving entry `y` holds key `"2"` and the next
`add "z"` computes key `2 + 1 - 1 = 2` again, overwriting `y`.  The claim's own
three-operation example (first conjunct) does hold — only `y` survives and
position 1 is not reused by anything — but the general invariant fails on the
four-operation sequence (second conjunct): the final map holds the single
entry `("2", "z")` and the historical entry `y` has been destroyed by an add. -/
theorem claim_C4_key_reuse :
    (runUntagged ⟨"X", .Untagged, []⟩
        [.add "x", .add "y", .del 1]).map Storage.to_structured_string
      = some ("<X>\n  - y\n</X>")
    ∧ (runUntagged ⟨"X", .Untagged, []⟩
        [.add "x", .add "y", .del 1, .add "z"]).map
          (fun st => st.inner.map (fun kv => (kv.1, kv.2.data)))
      = some [("2", "z")] :=
  ⟨rfl, rfl⟩

/-- Folding the Completion line format equals folding the Untagged line format
over entries whose data is suffixed with the completion marker. -/
theorem completion_fold (entries : List (String × Entry)) (acc : String) :
    entries.foldl (fun xml kv =>
        xml ++ "  - " ++ kv.2.data ++ " : " ++
          (if kv.2.complete then "COMPLETED" else "not completed") ++ "\n") acc
      = (entries.map (fun kv => (kv.1,
          Entry.mk (kv.2.data ++ " : " ++
            (if kv.2.complete then "COMPLETED" else "not completed")) kv.2.complete))).foldl
          (fun xml kv => xml ++ "  - " ++ kv.2.data ++ "\n") acc := by
  induction entries generalizing acc with
  | nil => rfl
  | cons kv tl ih =>
    simp only [List.map_cons, List.foldl_cons]
    rw [ih]
    congr 2
    simp [String.append_assoc]

/-- Claim C6: the `Completion` discipline is present in xml.rs's
`serialize_storage` (its variant and the entry flag are modelled from the spec,
because storage.rs's `StorageType` and `Entry` do not declare them — the two
source files contradict each other), and rendering a Completion storage
produces exactly the Untagged format with every entry's data suffixed by
` : COMPLETED` or ` : not completed` according to its flag; concretely a
storage `X` with entries `a` (complete) and `b` (incomplete) renders as
`<X>\n  - a : COMPLETED\n  - b : not completed\n</X>`. -/
theorem claim_C6_completion_rendering :
    (∀ (name : String) (entries : List (String × Entry)),
      serialize_storage ⟨name, .Completion, entries⟩
        = serialize_storage ⟨name, .Untagged,
            entries.map (fun kv => (kv.1,
              Entry.mk (kv.2.data ++ " : " ++
                (if kv.2.complete then "COMPLETED" else "not completed")) kv.2.complete))⟩)
    ∧ serialize_storage ⟨"X", .Completion, [("1", ⟨"a", true⟩), ("2", ⟨"b", false⟩)]⟩
        = "<X>\n  - a : COMPLETED\n  - b : not completed\n</X>" := by
  refine ⟨fun name entries => ?_, rfl⟩
  simp only [serialize_storage]
  rw [show (entries.map (fun kv => (kv.1,
      Entry.mk (kv.2.data ++ " : " ++
        (if kv.2.complete then "COMPLETED" else "not completed")) kv.2.complete))).isEmpty
      = entries.isEmpty from by cases entries <;> rfl]
  split
  · rfl
  · rw [completion_fold]

/-- Removing a key keeps every remaining key. -/
theorem keysOK_shiftRemove (m : List (String × Entry)) (k : String)
    (h : keysOK m = true) : keysOK (imShiftRemove m k).2 = true := by
  induction m with
  | nil => simpa [imShiftRemove] using h
  | cons kv tl ih =>
    simp only [keysOK, List.all_cons, Bool.and_eq_true] at h
    simp only [imShiftRemove]
    split
    · exact h.2
    · simp only [keysOK, List.all_cons, Bool.and_eq_true]
      exact ⟨h.1, ih h.2⟩

/-- Inserting under a reserved key keeps every key reserved. -/
theorem keysOK_insert (m : List (String × Entry)) (k : String) (v : Entry)
    (hk : k = CURRENT_TAG ∨ k = PREVIOUS_TAG) (h : keysOK m = true) :
    keysOK (imInsert m k v) = true := by
  have hkb : (k == CURRENT_TAG || k == PREVIOUS_TAG) = true := by
    rcases hk with rfl | rfl <;> simp
  induction m with
  | nil => simpa [imInsert, keysOK]
  | cons kv tl ih =>
    simp only [keysOK, List.all_cons, Bool.and_eq_true] at h
    simp only [imInsert]
    split
    · simp only [keysOK, List.all_cons, Bool.and_eq_true]
      exact ⟨hkb, h.2⟩
    · simp only [keysOK, List.all_cons, Bool.and_eq_true]
      exact ⟨h.1, ih h.2⟩

/-- Any run of `set_current` / `clear` operations keeps every key reserved. -/
theorem keysOK_runCP (ops : List CPOp) (st st' : Storage)
    (h : keysOK st.inner = true) (hr : runCP st ops = some st') :
    keysOK st'.inner = true := by
  induction ops generalizing st with
  | nil =>
    simp only [runCP, Option.some.injEq] at hr
    exact hr ▸ h
  | cons op ops ih =>
    cases op with
    | setCur d =>
      simp only [runCP] at hr
      cases h1 : set_current st d false with
      | none => rw [h1] at hr; simp at hr
      | some st2 =>
        rw [h1] at hr
        simp only [Option.some_bind] at hr
        refine ih st2 ?_ hr
        unfold set_current at h1
        cases htype : st.type_ <;> rw [htype] at h1 <;> try simp at h1
        rcases h1 with rfl
        simp only
        cases (imShiftRemove st.inner CURRENT_TAG).1 with
        | none =>
          exact keysOK_insert _ _ _ (Or.inl rfl) (keysOK_shiftRemove _ _ h)
        | some old =>
          exact keysOK_insert _ _ _ (Or.inr rfl)
            (keysOK_insert _ _ _ (Or.inl rfl) (keysOK_shiftRemove _ _ h))
    | wipe =>
      simp only [runCP] at hr
      exact ih st.clear (by simp [Storage.clear, keysOK]) hr

/-- Claim C7: starting from an empty CurrentPrevious storage, after any
sequence of `set_current` / `clear` operations only the two reserved keys
`__current` and `__previous` can be present (first conjunct), and
`set_current "a"` followed by `set_current "b"` — each a single step removing
the old current, installing the new one and re-inserting the old value under
the previous key, discarding any prior previous — renders as
`* Current X: b` on the first line and `* Previous X: a` on the second. -/
theorem claim_C7_current_previous :
    (∀ (ops : List CPOp) (st' : Storage),
      runCP ⟨"X", .CurrentPrevious, []⟩ ops = some st' → keysOK st'.inner = true)
    ∧ (runCP ⟨"X", .CurrentPrevious, []⟩ [.setCur "a", .setCur "b"]).map
        Storage.to_structured_string
      = some ("* Current X: b\n* Previous X: a") :=
  ⟨fun ops st' hr => keysOK_runCP ops ⟨"X", .CurrentPrevious, []⟩ st' rfl hr, rfl⟩

/-- Witness for claim C7 at a concrete operation sequence. -/
theorem claim_C7_witness :
    keysOK ([("__current", ⟨"b", false⟩), ("__previous", ⟨"a", false⟩)] :
      List (String × Entry)) = true :=
  claim_C7_current_previous.1 [.setCur "a", .setCur "b"]
    ⟨"X", .CurrentPrevious, [("__current", ⟨"b", false⟩), ("__previous", ⟨"a", false⟩)]⟩ rfl

/-- Claim C8: parsing exactly `<a k="v">p</a>` yields exactly one Invocation
with action `a`, attribute mapping `{k: v}` and payload `p`. -/
theorem claim_C8_example :
    parse_model_response ("<a k=" ++ "\"v\"" ++ ">p</a>").toList
      = .ok [⟨"a".toList, some [("k".toList, "v".toList)], some "p".toList⟩] := rfl

/-- Counterexample to claim C9: in `<t x=1 y="2">p</t>` the attribute `x=1` has
malformed quoting and `y="2"` is correctly quoted, but the parsed mapping is
`{"1 y": "2"}` — the regex key group `[^=]+` absorbs the malformed fragment
`1 ` into the sibling's key (only surrounding whitespace is trimmed), so the
sibling is NOT parsed with its own key `y`, and the fragment is not silently
dropped. -/
theorem claim_C9_counterexample :
    parse_model_response ("<t x=1 y=" ++ "\"2\"" ++ ">p</t>").toList
      = .ok [⟨"t".toList, some [("1 y".toList, "2".toList)], some "p".toList⟩]
    ∧ [("1 y".toList, "2".toList)].lookup "y".toList = none :=
  ⟨rfl, rfl⟩

/-- Claim C9, amended: a malformed attribute yields no entry of its own and a
correctly quoted sibling still yields an entry, but the sibling's key absorbs
the non-matching text standing before it, trimmed only of surrounding
whitespace; the sibling keeps exactly its own key and value when that absorbed
text is whitespace, as in `<t x= y="2">p</t>`, which parses to the mapping
`{y: 2}` with the malformed `x=` dropped. -/
theorem claim_C9_amended :
    parse_model_response ("<t x= y=" ++ "\"2\"" ++ ">p</t>").toList
      = .ok [⟨"t".toList, some [("y".toList, "2".toList)], some "p".toList⟩] := rfl

/-- Claim C10: on every storage state of the three disciplines declared by
storage.rs — Tagged, Untagged, CurrentPrevious — the standalone serializer of
xml.rs and the `to_structured_string` method of storage.rs produce exactly the
same string (both render an empty storage as the empty string). -/
theorem claim_C10_serializers_agree (st : Storage)
    (h : st.type_ = .Tagged ∨ st.type_ = .Untagged ∨ st.type_ = .CurrentPrevious) :
    serialize_storage st = st.to_structured_string := by
  obtain ⟨n, t, inner⟩ := st
  simp only at h
  rcases h with rfl | rfl | rfl <;> rfl

/-- Witness for claim C10 at a concrete tagged storage. -/
theorem claim_C10_witness :
    serialize_storage ⟨"X", .Tagged, [("k", Entry.new "v")]⟩
      = Storage.to_structured_string ⟨"X", .Tagged, [("k", Entry.new "v")]⟩ :=
  claim_C10_serializers_agree ⟨"X", .Tagged, [("k", Entry.new "v")]⟩ (Or.inl rfl)

theorem findChar_cons_true {p : Char → Bool} {c : Char} {cs : Str} (h : p c = true) :
    findChar p (c :: cs) = some 0 := by
  simp [findChar, h]

theorem findChar_cons_false {p : Char → Bool} {c : Char} {cs : Str} (h : p c = false) :
    findChar p (c :: cs) = (findChar p cs).map (· + 1) := by
  simp [findChar, h]

theorem findChar_none {p : Char → Bool} {l : Str} (h : ∀ c ∈ l, p c = false) :
    findChar p l = none := by
  induction l with
  | nil => rfl
  | cons c cs ih =>
    rw [findChar_cons_false (h c (List.mem_cons_self c cs))]
    rw [ih (fun x hx => h x (List.mem_cons_of_mem c hx))]
    rfl

theorem findChar_append_none {p : Char → Bool} {l₁ : Str} (l₂ : Str)
    (h : ∀ c ∈ l₁, p c = false) :
    findChar p (l₁ ++ l₂) = (findChar p l₂).map (· + l₁.length) := by
  induction l₁ with
  | nil => simp
  | cons c cs ih =>
    rw [List.cons_append, findChar_cons_false (h c (List.mem_cons_self c cs))]
    rw [ih (fun x hx => h x (List.mem_cons_of_mem c hx))]
    cases findChar p l₂ <;> simp <;> omega

theorem dropFull {α : Type} (l₁ : List α) (l₂ : List α) (k : Nat) (h : l₁.length ≤ k) :
    (l₁ ++ l₂).drop k = l₂.drop (k - l₁.length) := by
  induction l₁ generalizing k with
  | nil => simp
  | cons a tl ih =>
    cases k with
    | zero => simp at h
    | succ k' =>
      rw [List.cons_append, List.drop_succ_cons, ih k' (by simpa using h)]
      simp

theorem beginsWith_append_self (pat t : Str) : beginsWith pat (pat ++ t) = true := by
  induction pat with
  | nil => rfl
  | cons a as ih => simp [beginsWith, ih]

theorem of_beginsWith {pat s : Str} (h : beginsWith pat s = true) : ∃ t, s = pat ++ t := by
  induction pat generalizing s with
  | nil => exact ⟨s, rfl⟩
  | cons a as ih =>
    cases s with
    | nil => simp [beginsWith] at h
    | cons b bs =>
      simp only [beginsWith, Bool.and_eq_true, beq_iff_eq] at h
      obtain ⟨t, ht⟩ := ih h.2
      exact ⟨t, by simp [h.1, ht]⟩

theorem beginsWith_false_of_ne_head {a b : Char} (as bs : Str) (h : a ≠ b) :
    beginsWith (a :: as) (b :: bs) = false := by
  simp [beginsWith, h]

theorem beginsWith_weaken {p q s : Str} (h : beginsWith (p ++ q) s = true) :
    beginsWith p s = true := by
  induction p generalizing s with
  | nil => rfl
  | cons a as ih =>
    cases s with
    | nil => simp [beginsWith] at h
    | cons b bs =>
      simp only [List.cons_append, beginsWith, Bool.and_eq_true] at h ⊢
      exact ⟨h.1, ih h.2⟩

theorem beginsWith_append_both (x p s : Str) :
    beginsWith (x ++ p) (x ++ s) = beginsWith p s := by
  induction x with
  | nil => rfl
  | cons a as ih => simp [beginsWith, ih]

theorem begins_cons_self {c : Char} {u m : Str} (h : beginsWith (c :: u) (u ++ m) = true) :
    ∀ x ∈ u, x = c := by
  induction u generalizing c with
  | nil => intro x hx; simp at hx
  | cons a u' ih =>
    simp only [List.cons_append, beginsWith, Bool.and_eq_true, beq_iff_eq] at h
    intro x hx
    rcases List.mem_cons.mp hx with rfl | hx'
    · exact h.1.symm
    · exact (ih h.2 x hx').trans h.1.symm

theorem beginsWith_length_le {pat s : Str} (h : beginsWith pat s = true) :
    pat.length ≤ s.length := by
  obtain ⟨t, rfl⟩ := of_beginsWith h
  simp

theorem findSub_of_begins {pat s : Str} (h : beginsWith pat s = true) :
    findSub pat s = some 0 := by
  cases s <;> simp [findSub, h]

theorem findSub_cons_not {pat : Str} {c : Char} {cs : Str}
    (h : beginsWith pat (c :: cs) = false) :
    findSub pat (c :: cs) = (findSub pat cs).map (· + 1) := by
  simp [findSub, h]

theorem findSub_append_head {c : Char} {pat' : Str} (X Y : Str)
    (hX : ∀ x ∈ X, x ≠ c) :
    findSub (c :: pat') (X ++ Y) = (findSub (c :: pat') Y).map (· + X.length) := by
  induction X with
  | nil => cases h : findSub (c :: pat') Y <;> simp [h]
  | cons x xs ih =>
    have hcx : c ≠ x := Ne.symm (hX x (List.mem_cons_self x xs))
    rw [List.cons_append, findSub_cons_not (beginsWith_false_of_ne_head _ _ hcx)]
    rw [ih (fun y hy => hX y (List.mem_cons_of_mem x hy))]
    cases findSub (c :: pat') Y <;> simp <;> omega

theorem findSub_none_of_longer {pat s : Str} (h : s.length < pat.length) :
    findSub pat s = none := by
  induction s with
  | nil =>
    cases pat with
    | nil => simp at h
    | cons a as => simp [findSub, beginsWith]
  | cons b bs ih =>
    have hb : beginsWith pat (b :: bs) = false := by
      by_contra hcon
      simp only [Bool.not_eq_false] at hcon
      have := beginsWith_length_le hcon
      simp only [List.length_cons] at h this
      omega
    rw [findSub_cons_not hb, ih (by simp at h ⊢; omega)]
    rfl

theorem closing_not_begins (n m : Str)
    (hm : m.head? = some ' ' ∨ m.head? = some '>') :
    beginsWith ('<' :: '/' :: (n ++ ['>'])) ('<' :: (n ++ m)) = false := by
  by_contra hcon
  simp only [Bool.not_eq_false] at hcon
  have h1 : beginsWith ('/' :: (n ++ ['>'])) (n ++ m) = true := by
    simpa [beginsWith] using hcon
  have hall : ∀ x ∈ n, x = '/' := by
    refine begins_cons_self (m := m) (beginsWith_weaken (q := ['>']) ?_)
    simpa using h1
  have hrep : n = List.replicate n.length '/' := List.eq_replicate_of_mem hall
  have hsh : ('/' : Char) :: (n ++ ['>']) = n ++ ['/', '>'] := by
    conv_lhs => rw [hrep]
    conv_rhs => rw [hrep]
    rw [← List.cons_append, ← List.replicate_succ, List.replicate_succ']
    simp
  rw [hsh, beginsWith_append_both] at h1
  obtain ⟨t, rfl⟩ := of_beginsWith h1
  simp at hm

theorem takeWhile_run {p : Char → Bool} {xs : Str} (y : Char) (ys : Str)
    (hxs : ∀ x ∈ xs, p x = true) (hy : p y = false) :
    (xs ++ y :: ys).takeWhile p = xs := by
  induction xs with
  | nil => simp [List.takeWhile_cons, hy]
  | cons x xs' ih =>
    rw [List.cons_append, List.takeWhile_cons]
    simp [hxs x (List.mem_cons_self x xs'),
      ih (fun z hz => hxs z (List.mem_cons_of_mem x hz))]

theorem attrMatchAt_eval (k v t : Str) (hk : k ≠ []) (hkeq : ∀ c ∈ k, c ≠ '=')
    (hv : v ≠ []) (hvq : ∀ c ∈ v, c ≠ '"') :
    attrMatchAt (k ++ '=' :: '"' :: (v ++ '"' :: t))
      = some ((k, v), k.length + 2 + v.length + 1) := by
  have hkey : (k ++ '=' :: '"' :: (v ++ '"' :: t)).takeWhile (fun c => c != '=') = k :=
    takeWhile_run _ _ (fun x hx => by simp [hkeq x hx]) (by simp)
  have hval : (v ++ '"' :: t).takeWhile (fun c => c != '"') = v :=
    takeWhile_run _ _ (fun x hx => by simp [hvq x hx]) (by simp)
  simp only [attrMatchAt, hkey, if_neg hk, List.drop_left, hval, if_neg hv]

theorem trimChars_cons_space (x : Str) : trimChars (' ' :: x) = trimChars x := by
  simp [trimChars, List.dropWhile_cons, wsChar]

theorem assocUpsert_not_mem (m : List (Str × Str)) (k v : Str)
    (h : k ∉ m.map Prod.fst) : assocUpsert m k v = m ++ [(k, v)] := by
  induction m with
  | nil => rfl
  | cons kv tl ih =>
    simp only [List.map_cons, List.mem_cons] at h
    push_neg at h
    simp only [assocUpsert]
    rw [if_neg (fun he => h.1 he.symm), ih h.2]
    rfl

theorem foldl_upsert_nodup (l : List (Str × Str)) :
    ∀ acc : List (Str × Str),
    (l.map Prod.fst).Nodup → (∀ k ∈ l.map Prod.fst, k ∉ acc.map Prod.fst) →
    l.foldl (fun m kv => assocUpsert m kv.1 kv.2) acc = acc ++ l := by
  induction l with
  | nil => intro acc _ _; simp
  | cons kv tl ih =>
    intro acc hnd hdisj
    simp only [List.map_cons, List.nodup_cons] at hnd
    simp only [List.foldl_cons]
    rw [assocUpsert_not_mem acc kv.1 kv.2 (hdisj kv.1 (by simp))]
    rw [ih (acc ++ [kv]) hnd.2 ?_]
    · simp
    · intro k hkmem hmem
      rw [List.map_append] at hmem
      rcases List.mem_append.mp hmem with hA | hB
      · exact hdisj k (by simp [hkmem]) hA
      · have hk1 : k = kv.1 := by simpa using hB
        exact hnd.1 (hk1 ▸ hkmem)

theorem attrClause_shape (kv : Str × Str) (tl : List (Str × Str)) :
    attrClause (kv :: tl) = (' ' :: kv.1) ++ '=' :: '"' :: (kv.2 ++ '"' :: attrClause tl) := by
  simp [attrClause]

theorem attrClause_key_cons (k : Str) (hk : ∀ c ∈ k, c ≠ '=') :
    ∀ c ∈ (' ' :: k : Str), c ≠ '=' := by
  intro c hc
  rcases List.mem_cons.mp hc with rfl | hc'
  · decide
  · exact hk c hc'

theorem capturesAux_clause (l : List (Str × Str))
    (hkv : ∀ kv ∈ l, goodKey kv.1 ∧ goodVal kv.2) :
    ∀ fuel, (attrClause l).length < fuel →
      xmlCapturesAux fuel (attrClause l) = l.map (fun kv => ((' ' :: kv.1 : Str), kv.2)) := by
  induction l with
  | nil =>
    intro fuel hf
    cases fuel with
    | zero => simp [attrClause] at hf
    | succ f => rfl
  | cons kv tl ih =>
    intro fuel hf
    obtain ⟨⟨hk1, _, hk3⟩, ⟨hv1, _, hv3⟩⟩ := hkv kv (List.mem_cons_self kv tl)
    cases fuel with
    | zero => omega
    | succ f =>
      rw [attrClause_shape]
      have hm := attrMatchAt_eval (' ' :: kv.1) kv.2 (attrClause tl)
        (by simp) (attrClause_key_cons kv.1 (fun c hc => (hk3 c hc).1))
        hv1 (fun c hc => (hv3 c hc).1)
      simp only [xmlCapturesAux, hm]
      have hdrop : ((' ' :: kv.1) ++ '=' :: '"' :: (kv.2 ++ '"' :: attrClause tl)).drop
          ((' ' :: kv.1).length + 2 + kv.2.length + 1) = attrClause tl := by
        have hsh : (' ' :: kv.1) ++ '=' :: '"' :: (kv.2 ++ '"' :: attrClause tl)
            = ((' ' :: kv.1) ++ '=' :: '"' :: kv.2 ++ ['"']) ++ attrClause tl := by
          simp
        rw [hsh]
        rw [List.drop_left' (by simp; omega)]
      rw [hdrop]
      rw [ih (fun x hx => hkv x (List.mem_cons_of_mem kv hx)) f ?_]
      · simp
      · rw [attrClause_shape] at hf
        simp only [List.length_append, List.length_cons] at hf ⊢
        omega

theorem captures_attrStr (kv : Str × Str) (tl : List (Str × Str))
    (hkv : ∀ x ∈ (kv :: tl), goodKey x.1 ∧ goodVal x.2) :
    ∀ fuel, (kv.1 ++ '=' :: '"' :: (kv.2 ++ '"' :: attrClause tl)).length < fuel →
    xmlCapturesAux fuel (kv.1 ++ '=' :: '"' :: (kv.2 ++ '"' :: attrClause tl))
      = (kv.1, kv.2) :: tl.map (fun x => ((' ' :: x.1 : Str), x.2)) := by
  intro fuel hf
  obtain ⟨⟨hk1, _, hk3⟩, ⟨hv1, _, hv3⟩⟩ := hkv kv (List.mem_cons_self kv tl)
  cases fuel with
  | zero => omega
  | succ f =>
    have hm := attrMatchAt_eval kv.1 kv.2 (attrClause tl)
      hk1 (fun c hc => (hk3 c hc).1) hv1 (fun c hc => (hv3 c hc).1)
    simp only [xmlCapturesAux, hm]
    have hdrop : (kv.1 ++ '=' :: '"' :: (kv.2 ++ '"' :: attrClause tl)).drop
        (kv.1.length + 2 + kv.2.length + 1) = attrClause tl := by
      have hsh : kv.1 ++ '=' :: '"' :: (kv.2 ++ '"' :: attrClause tl)
          = (kv.1 ++ '=' :: '"' :: kv.2 ++ ['"']) ++ attrClause tl := by
        simp
      rw [hsh]
      rw [List.drop_left' (by simp; omega)]
    rw [hdrop]
    rw [capturesAux_clause tl (fun x hx => hkv x (List.mem_cons_of_mem kv hx)) f ?_]
    simp only [List.length_append, List.length_cons] at hf ⊢
    omega

theorem buildAttrs_caps (kv : Str × Str) (tl : List (Str × Str))
    (hkv : ∀ x ∈ (kv :: tl), goodKey x.1 ∧ goodVal x.2)
    (hnd : ((kv :: tl).map Prod.fst).Nodup) :
    buildAttrs ((kv.1, kv.2) :: tl.map (fun x => ((' ' :: x.1 : Str), x.2))) = kv :: tl := by
  unfold buildAttrs
  have hmap : ((kv.1, kv.2) :: tl.map (fun x => ((' ' :: x.1 : Str), x.2))).map
      (fun c => ((trimChars c.1, trimChars c.2) : Str × Str)) = kv :: tl := by
    obtain ⟨⟨_, hk2, _⟩, ⟨_, hv2, _⟩⟩ := hkv kv (List.mem_cons_self kv tl)
    simp only [List.map_cons, List.map_map]
    rw [hk2, hv2]
    have : tl.map ((fun c => ((trimChars c.1, trimChars c.2) : Str × Str)) ∘
        (fun x => ((' ' :: x.1 : Str), x.2))) = tl.map id := by
      apply List.map_congr_left
      intro x hx
      obtain ⟨⟨_, hxk, _⟩, ⟨_, hxv, _⟩⟩ := hkv x (List.mem_cons_of_mem kv hx)
      simp [Function.comp, trimChars_cons_space, hxk, hxv]
    rw [this, List.map_id]
  calc ((kv.1, kv.2) :: tl.map (fun x => ((' ' :: x.1 : Str), x.2))).foldl
        (fun attrs c => assocUpsert attrs (trimChars c.1) (trimChars c.2)) []
      = (((kv.1, kv.2) :: tl.map (fun x => ((' ' :: x.1 : Str), x.2))).map
          (fun c => ((trimChars c.1, trimChars c.2) : Str × Str))).foldl
          (fun m c => assocUpsert m c.1 c.2) [] := by
        rw [List.foldl_map]
    _ = (kv :: tl).foldl (fun m c => assocUpsert m c.1 c.2) [] := by rw [hmap]
    _ = kv :: tl := by
        rw [foldl_upsert_nodup (kv :: tl) [] hnd (by simp)]
        simp

theorem attrClause_chars (l : List (Str × Str))
    (hkv : ∀ x ∈ l, goodKey x.1 ∧ goodVal x.2) :
    ∀ c ∈ attrClause l, c ≠ '<' ∧ c ≠ '>' := by
  induction l with
  | nil => intro c hc; simp [attrClause] at hc
  | cons kv tl ih =>
    intro c hc
    rw [attrClause_shape] at hc
    obtain ⟨⟨_, _, hk3⟩, ⟨_, _, hv3⟩⟩ := hkv kv (List.mem_cons_self kv tl)
    simp only [List.cons_append, List.mem_cons, List.mem_append] at hc
    rcases hc with rfl | hc | rfl | rfl | hc | rfl | hc
    · exact ⟨by decide, by decide⟩
    · exact ⟨(hk3 c hc).2.1, (hk3 c hc).2.2⟩
    · exact ⟨by decide, by decide⟩
    · exact ⟨by decide, by decide⟩
    · exact ⟨(hv3 c hc).2.1, (hv3 c hc).2.2⟩
    · exact ⟨by decide, by decide⟩
    · exact ih (fun x hx => hkv x (List.mem_cons_of_mem kv hx)) c hc

theorem foldl_attrClause (l : List (Str × Str)) (acc : Str) :
    l.foldl (fun xml kv => xml ++ ((' ' :: kv.1) ++ ('=' :: '"' :: kv.2) ++ ['"'])) acc
      = acc ++ attrClause l := by
  induction l generalizing acc with
  | nil => simp [attrClause]
  | cons kv tl ih =>
    rw [List.foldl_cons, ih]
    simp [attrClause, List.append_assoc]

theorem serialize_shape (n : Str) (attrs : Option (List (Str × Str))) (pay : Option Str) :
    serialize_invocation ⟨n, attrs, pay⟩
      = '<' :: (n ++ ((match attrs with | some l => attrClause l | none => ([] : Str)) ++
          ('>' :: ((pay.getD []) ++ ('<' :: '/' :: (n ++ ['>'])))))) := by
  cases attrs with
  | none => cases pay <;> simp [serialize_invocation, List.append_assoc]
  | some l =>
    cases pay <;>
      (simp only [serialize_invocation]
       rw [foldl_attrClause]
       simp [List.append_assoc])

theorem parseStep_serialized (n A p : Str) (attrRes : Option (List (Str × Str)))
    (pres : Option Str)
    (hn : ∀ c ∈ n, c ≠ '<' ∧ c ≠ '>' ∧ c ≠ ' ')
    (hA : ∀ c ∈ A, c ≠ '<' ∧ c ≠ '>')
    (hAh : (A = [] ∧ attrRes = none) ∨
      (∃ b, A = ' ' :: b ∧ attrRes = some (buildAttrs (xmlCaptures b))))
    (hpc : ∀ c ∈ p, c ≠ '<')
    (hpres : (p = [] ∧ pres = none) ∨
      (∃ c rest, p = c :: rest ∧ pres = some (trimChars (c :: rest)))) :
    parseStep ('<' :: (n ++ (A ++ ('>' :: (p ++ ('<' :: '/' :: (n ++ ['>']))))))) 0
      = .matched (3 * n.length + A.length + 2) ⟨n, attrRes, pres⟩ := by
  have hnterm : ∀ c ∈ n, ((c == '>' || c == ' ') : Bool) = false := fun c hc => by
    obtain ⟨_, h2, h3⟩ := hn c hc
    simp [h2, h3]
  have hngt : ∀ c ∈ n, ((c == '>') : Bool) = false := fun c hc => by
    simp [(hn c hc).2.1]
  have hAgt : ∀ c ∈ A, ((c == '>') : Bool) = false := fun c hc => by
    simp [(hA c hc).2]
  -- the leading `<` is found at index 0
  have hfind1 : findChar (fun c => c == '<')
      ('<' :: (n ++ (A ++ ('>' :: (p ++ ('<' :: '/' :: (n ++ ['>'])))))))
      = some 0 := findChar_cons_true (by decide)
  -- the tag-name terminator: first `>` or space, at index n.length + 1
  have hterm : findChar (fun c => c == '>' || c == ' ')
      ('<' :: (n ++ (A ++ ('>' :: (p ++ ('<' :: '/' :: (n ++ ['>'])))))))
      = some (n.length + 1) := by
    rw [findChar_cons_false (by decide), findChar_append_none _ hnterm]
    rcases hAh with ⟨rfl, _⟩ | ⟨b, rfl, _⟩
    · rw [List.nil_append, findChar_cons_true (by decide)]
      simp
    · rw [List.cons_append, findChar_cons_true (by decide)]
      simp
  -- the tag name slice recovers the action name
  have hname : sliceTotal ('<' :: (n ++ (A ++ ('>' :: (p ++ ('<' :: '/' :: (n ++ ['>'])))))))
      1 (n.length + 1) = n := by
    simp only [sliceTotal, List.drop_succ_cons, List.drop_zero]
    rw [show n.length + 1 - 1 = n.length from by omega]
    exact List.take_left n _
  -- the first `>`, at index n.length + A.length + 1
  have hclose : findChar (fun c => c == '>')
      ('<' :: (n ++ (A ++ ('>' :: (p ++ ('<' :: '/' :: (n ++ ['>'])))))))
      = some (n.length + A.length + 1) := by
    rw [findChar_cons_false (by decide), findChar_append_none _ hngt,
      findChar_append_none _ hAgt, findChar_cons_true (by decide)]
    simp only [Option.map_some']
    congr 1
    omega
  -- the closing tag, at index n.length + A.length + p.length + 2
  have hclosing : findSub ('<' :: '/' :: (n ++ ['>']))
      ('<' :: (n ++ (A ++ ('>' :: (p ++ ('<' :: '/' :: (n ++ ['>'])))))))
      = some (n.length + A.length + p.length + 2) := by
    have hhead : (A ++ ('>' :: (p ++ ('<' :: '/' :: (n ++ ['>']))))).head? = some ' '
        ∨ (A ++ ('>' :: (p ++ ('<' :: '/' :: (n ++ ['>']))))).head? = some '>' := by
      rcases hAh with ⟨rfl, _⟩ | ⟨b, rfl, _⟩
      · right; rfl
      · left; rfl
    rw [findSub_cons_not (closing_not_begins n _ hhead)]
    have hassoc : n ++ (A ++ ('>' :: (p ++ ('<' :: '/' :: (n ++ ['>'])))))
        = (n ++ (A ++ ('>' :: p))) ++ ('<' :: '/' :: (n ++ ['>'])) := by
      simp
    rw [hassoc]
    have hX : ∀ x ∈ n ++ (A ++ ('>' :: p)), x ≠ '<' := by
      intro x hx
      rcases List.mem_append.mp hx with hx | hx
      · exact (hn x hx).1
      rcases List.mem_append.mp hx with hx | hx
      · exact (hA x hx).1
      rcases List.mem_cons.mp hx with rfl | hx
      · decide
      · exact hpc x hx
    rw [findSub_append_head _ _ hX]
    have hb : beginsWith ('<' :: '/' :: (n ++ ['>'])) ('<' :: '/' :: (n ++ ['>'])) = true := by
      have := beginsWith_append_self ('<' :: '/' :: (n ++ ['>'])) []
      simpa using this
    rw [findSub_of_begins hb]
    simp only [Option.map_some']
    congr 1
    simp only [List.length_append, List.length_cons]
    omega
  -- the payload slice recovers the payload
  have hafter : sliceTotal ('<' :: (n ++ (A ++ ('>' :: (p ++ ('<' :: '/' :: (n ++ ['>'])))))))
      (n.length + A.length + 1 + 1) (n.length + A.length + p.length + 2) = p := by
    simp only [sliceTotal, List.drop_succ_cons]
    have hassoc : n ++ (A ++ ('>' :: (p ++ ('<' :: '/' :: (n ++ ['>'])))))
        = (n ++ A) ++ ('>' :: (p ++ ('<' :: '/' :: (n ++ ['>'])))) := by
      simp
    rw [hassoc, dropFull _ _ _ (by simp only [List.length_append]; omega)]
    rw [show n.length + A.length + 1 - (n ++ A).length = 1 from by
      simp only [List.length_append]; omega]
    rw [List.drop_succ_cons, List.drop_zero]
    rw [show n.length + A.length + p.length + 2 - (n.length + A.length + 1 + 1) = p.length
      from by omega]
    exact List.take_left p _
  have hle : n.length + A.length + 1 + 1 ≤ n.length + A.length + p.length + 2 := by omega
  rcases hAh with ⟨rfl, rfl⟩ | ⟨b, rfl, rfl⟩
  · -- no attributes: the character after the name is `>`, not a space
    have hget : ('<' :: (n ++ ([] ++ ('>' :: (p ++ ('<' :: '/' :: (n ++ ['>']))))))).get?
        (n.length + 1) = some '>' := by
      simp only [List.nil_append, List.get?_cons_succ]
      rw [List.get?_append_right (Nat.le_refl _)]
      rw [show n.length - n.length = 0 from by omega]
      rfl
    have hne : ('<' :: (n ++ ([] ++ ('>' :: (p ++ ('<' :: '/' :: (n ++ ['>']))))))).get?
        (n.length + 1) ≠ some ' ' := by
      rw [hget]; decide
    rcases hpres with ⟨rfl, rfl⟩ | ⟨c, rest, rfl, rfl⟩
    · simp only [parseStep, List.drop_zero, hfind1, Nat.zero_add, Nat.add_zero, hterm,
        hname, hclose, hclosing, if_pos hle, if_neg hne, hafter, Invocation.new]
      congr 1
      simp only [List.length_nil]
      omega
    · have hcne : ((c != '<') : Bool) = true := by
        simp [hpc c (List.mem_cons_self c rest)]
      simp only [parseStep, List.drop_zero, hfind1, Nat.zero_add, Nat.add_zero, hterm,
        hname, hclose, hclosing, if_pos hle, if_neg hne, hafter, hcne, if_true,
        Invocation.new]
      congr 1
      simp only [List.length_nil]
      omega
  · -- attributes present: a space follows the name and the attribute substring is b
    have hget : ('<' :: (n ++ ((' ' :: b) ++ ('>' :: (p ++ ('<' :: '/' :: (n ++ ['>']))))))).get?
        (n.length + 1) = some ' ' := by
      simp only [List.get?_cons_succ]
      rw [List.get?_append_right (Nat.le_refl _)]
      rw [show n.length - n.length = 0 from by omega]
      rfl
    have hattrstr : sliceTotal
        ('<' :: (n ++ ((' ' :: b) ++ ('>' :: (p ++ ('<' :: '/' :: (n ++ ['>'])))))))
        (n.length + 1 + 1) (n.length + (' ' :: b).length + 1) = b := by
      simp only [sliceTotal, List.drop_succ_cons]
      rw [dropFull _ _ _ (by omega)]
      rw [show n.length + 1 - n.length = 1 from by omega]
      rw [List.cons_append, List.drop_succ_cons, List.drop_zero]
      rw [show n.length + (' ' :: b).length + 1 - (n.length + 1 + 1) = b.length from by
        simp only [List.length_cons]; omega]
      exact List.take_left b _
    rcases hpres with ⟨rfl, rfl⟩ | ⟨c, rest, rfl, rfl⟩
    · simp only [parseStep, List.drop_zero, hfind1, Nat.zero_add, Nat.add_zero, hterm,
        hname, hclose, hclosing, if_pos hle, hget, hattrstr, Invocation.new]
      congr 1
      · simp only [List.length_cons, List.length_nil]
        omega
      · simp only [hafter, if_true]
    · have hcne : ((c != '<') : Bool) = true := by
        simp [hpc c (List.mem_cons_self c rest)]
      simp only [parseStep, List.drop_zero, hfind1, Nat.zero_add, Nat.add_zero, hterm,
        hname, hclose, hclosing, if_pos hle, hget, hattrstr, hcne, if_true,
        Invocation.new]
      congr 1
      · simp only [List.length_cons, List.length_nil]
        omega
      · simp only [hafter, hcne, if_true]

theorem parseLoop_stop (s : Str) (fuel cur : Nat) (acc : List Invocation)
    (hf : 0 < fuel) (h : ¬ cur < s.length) : parseLoop s fuel cur acc = .ok acc := by
  cases fuel with
  | zero => omega
  | succ f => simp [parseLoop, h]

theorem parseLoop_no_tag (s : Str) (fuel cur : Nat) (acc : List Invocation)
    (hf : 0 < fuel) (h : ∀ c ∈ s.drop cur, c ≠ '<') :
    parseLoop s fuel cur acc = .ok acc := by
  cases fuel with
  | zero => omega
  | succ f =>
    by_cases hc : cur < s.length
    · have hstep : parseStep s cur = .done := by
        unfold parseStep
        rw [findChar_none (fun c hcmem => by simp [h c hcmem])]
    
      simp [parseLoop, hc, hstep]
    · simp [parseLoop, hc]

theorem parseLoop_skip_closing (s : Str) (fuel cur : Nat) (acc : List Invocation)
    (X n : Str) (hf : 2 ≤ fuel)
    (hX : ∀ c ∈ X, c ≠ '<') (hn : ∀ c ∈ n, c ≠ '<' ∧ c ≠ '>' ∧ c ≠ ' ')
    (hcur : cur < s.length)
    (hdrop : s.drop cur = X ++ ('<' :: '/' :: (n ++ ['>']))) :
    parseLoop s fuel cur acc = .ok acc := by
  cases fuel with
  | zero => omega
  | succ f =>
    have hcurle : cur ≤ s.length := Nat.le_of_lt hcur
    have hlen : s.length = cur + (X.length + (n.length + 3)) := by
      have h1 : (s.drop cur).length = X.length + (n.length + 3) := by
        rw [hdrop]
        simp only [List.length_append, List.length_cons, List.length_nil]
      rw [List.length_drop] at h1
      omega
    have hfind : findChar (fun c => c == '<') (s.drop cur) = some X.length := by
      rw [hdrop, findChar_append_none _ (fun c hc => by simp [hX c hc]),
        findChar_cons_true (by decide)]
      simp
    have hptr : s.drop (cur + X.length) = '<' :: '/' :: (n ++ ['>']) := by
      rw [← List.drop_drop, hdrop, List.drop_left]
    have hnterm : ∀ c ∈ n, ((c == '>' || c == ' ') : Bool) = false := fun c hc => by
      obtain ⟨_, h2, h3⟩ := hn c hc
      simp [h2, h3]
    have hngt : ∀ c ∈ n, ((c == '>') : Bool) = false := fun c hc => by
      simp [(hn c hc).2.1]
    have hterm2 : findChar (fun c => c == '>' || c == ' ') ('<' :: '/' :: (n ++ ['>']))
        = some (n.length + 2) := by
      rw [findChar_cons_false (by decide), findChar_cons_false (by decide),
        findChar_append_none _ hnterm, findChar_cons_true (by decide)]
      simp only [Option.map_some']
      congr 1
      omega
    have hname2 : sliceTotal ('<' :: '/' :: (n ++ ['>'])) 1 (n.length + 2) = '/' :: n := by
      simp only [sliceTotal, List.drop_succ_cons, List.drop_zero]
      rw [show n.length + 2 - 1 = n.length + 1 from by omega]
      rw [List.take_succ_cons]
      rw [List.take_left n _]
    have hclose2 : findChar (fun c => c == '>') ('<' :: '/' :: (n ++ ['>']))
        = some (n.length + 2) := by
      rw [findChar_cons_false (by decide), findChar_cons_false (by decide),
        findChar_append_none _ hngt, findChar_cons_true (by decide)]
      simp only [Option.map_some']
      congr 1
      omega
    have hclosingnone : findSub ('<' :: '/' :: (('/' :: n) ++ ['>']))
        ('<' :: '/' :: (n ++ ['>'])) = none := by
      apply findSub_none_of_longer
      simp only [List.length_cons, List.length_append, List.length_nil]
      omega
    simp only [parseLoop, if_pos hcur, parseStep, hfind, hptr, hterm2, hname2, hclose2,
      hclosingnone]
    apply parseLoop_stop s f _ acc (by omega)
    simp only [List.length_cons, List.length_nil, not_lt]
    omega

theorem parseLoop_after_match (S : Str) (fuel : Nat) (acc : List Invocation)
    (n A p : Str)
    (hn : ∀ c ∈ n, c ≠ '<' ∧ c ≠ '>' ∧ c ≠ ' ')
    (hAlt : ∀ c ∈ A, c ≠ '<')
    (hpc : ∀ c ∈ p, c ≠ '<')
    (hS : S = '<' :: (n ++ (A ++ ('>' :: (p ++ ('<' :: '/' :: (n ++ ['>'])))))))
    (hfuel : 2 ≤ fuel) :
    parseLoop S fuel (3 * n.length + A.length + 2) acc = .ok acc := by
  have hSlen : S.length = 2 * n.length + A.length + p.length + 5 := by
    rw [hS]
    simp only [List.length_cons, List.length_append, List.length_nil]
    omega
  by_cases hstop : 3 * n.length + A.length + 2 < S.length
  · by_cases hp2 : 2 * n.length ≤ p.length
    · -- the cursor lands inside the payload (or exactly on the closing tag)
      apply parseLoop_skip_closing S fuel _ acc (p.drop (2 * n.length)) n hfuel
        (fun c hc => hpc c (List.mem_of_mem_drop hc)) hn hstop
      have hassoc : S = ('<' :: (n ++ (A ++ ('>' :: p.take (2 * n.length)))))
          ++ (p.drop (2 * n.length) ++ ('<' :: '/' :: (n ++ ['>']))) := by
        rw [hS]
        conv_lhs => rw [← List.take_append_drop (2 * n.length) p]
        simp only [List.cons_append, List.append_assoc]
      rw [hassoc, List.drop_left' ?_]
      simp only [List.length_cons, List.length_append, List.length_nil, List.length_take]
      omega
    · -- the cursor lands inside the literal closing tag, past its `<`
      apply parseLoop_no_tag S fuel _ acc (by omega)
      have hdrop2 : S.drop (3 * n.length + A.length + 2)
          = ('/' :: (n ++ ['>'])).drop (2 * n.length - p.length - 1) := by
        have hassoc : S = ('<' :: (n ++ (A ++ ('>' :: (p ++ ['<'])))))
            ++ ('/' :: (n ++ ['>'])) := by
          rw [hS]
          simp [List.append_assoc]
        rw [hassoc, dropFull _ _ _ ?_]
        · congr 1
          simp only [List.length_cons, List.length_append, List.length_nil]
          omega
        · simp only [List.length_cons, List.length_append, List.length_nil]
          omega
      rw [hdrop2]
      intro c hc
      have hc' : c ∈ '/' :: (n ++ ['>']) := List.mem_of_mem_drop hc
      rcases List.mem_cons.mp hc' with rfl | hc''
      · decide
      rcases List.mem_append.mp hc'' with hcn | hcg
      · exact (hn c hcn).1
      · have hcg' : c = '>' := by simpa using hcg
        subst hcg'
        decide
  · exact parseLoop_stop S fuel _ acc (by omega) hstop

theorem parse_serialized (n A p : Str) (attrRes : Option (List (Str × Str)))
    (pres : Option Str)
    (hn : ∀ c ∈ n, c ≠ '<' ∧ c ≠ '>' ∧ c ≠ ' ')
    (hA : ∀ c ∈ A, c ≠ '<' ∧ c ≠ '>')
    (hAh : (A = [] ∧ attrRes = none) ∨
      (∃ b, A = ' ' :: b ∧ attrRes = some (buildAttrs (xmlCaptures b))))
    (hpc : ∀ c ∈ p, c ≠ '<')
    (hpres : (p = [] ∧ pres = none) ∨
      (∃ c rest, p = c :: rest ∧ pres = some (trimChars (c :: rest)))) :
    parse_model_response ('<' :: (n ++ (A ++ ('>' :: (p ++ ('<' :: '/' :: (n ++ ['>'])))))))
      = .ok [⟨n, attrRes, pres⟩] := by
  simp only [parse_model_response]
  have hstep := parseStep_serialized n A p attrRes pres hn hA hAh hpc hpres
  have h0 : 0 < ('<' :: (n ++ (A ++ ('>' :: (p ++ ('<' :: '/' :: (n ++ ['>']))))))).length := by
    simp
  simp only [parseLoop, if_pos h0, hstep, List.nil_append]
  exact parseLoop_after_match _
    (('<' :: (n ++ (A ++ ('>' :: (p ++ ('<' :: '/' :: (n ++ ['>']))))))).length) _ n A p
    hn (fun c hc => (hA c hc).1) hpc rfl
    (by simp only [List.length_cons, List.length_append, List.length_nil]; omega)

/-- Counterexample to claim C5: the invocation parsed from `<t >p</t>` (payload
`p`, ASCII attribute values — an attribute mapping which is present but empty)
serializes to `<t>p</t>`, which re-parses with an absent attribute mapping:
the round trip does not reproduce the original Invocation. -/
theorem claim_C5_counterexample :
    parse_model_response "<t >p</t>".toList = .ok [⟨"t".toList, some [], some "p".toList⟩]
    ∧ serialize_invocation ⟨"t".toList, some [], some "p".toList⟩ = "<t>p</t>".toList
    ∧ parse_model_response "<t>p</t>".toList = .ok [⟨"t".toList, none, some "p".toList⟩]
    ∧ (⟨"t".toList, none, some "p".toList⟩ : Invocation) ≠ ⟨"t".toList, some [], some "p".toList⟩ :=
  ⟨rfl, rfl, rfl, by decide⟩

/-- Claim C5, amended: serializing an Invocation and re-parsing reproduces
exactly that single Invocation whenever the action name is free of `<`, `>`
and space; the attribute mapping is absent, or nonempty with distinct keys,
every key nonempty, trimmed and free of `=`, `<`, `>`, and every value
nonempty, trimmed and free of `"`, `<`, `>`; and the payload is absent, or
nonempty, trimmed and free of `<`.  Invocations produced by parsing can
violate the nonemptiness conditions (see the counterexample), so the original
claim's restriction to parsed invocations with "ASCII values, payload not
starting with `<`" is not sufficient. -/
theorem claim_C5_roundtrip (inv : Invocation) (h : RoundTrippable inv) :
    parse_model_response (serialize_invocation inv) = .ok [inv] := by
  obtain ⟨n, attrs, pay⟩ := inv
  obtain ⟨hn, hattr, hpay⟩ := h
  have hn2 : ∀ c ∈ n, c ≠ '<' ∧ c ≠ '>' ∧ c ≠ ' ' := hn
  rw [serialize_shape]
  rcases attrs with _ | l
  · rcases pay with _ | q
    · exact parse_serialized n [] [] none none hn2 (by simp) (Or.inl ⟨rfl, rfl⟩)
        (by simp) (Or.inl ⟨rfl, rfl⟩)
    · have hq2 : trimChars q = q := hpay.2.1
      have hq3 : ∀ c ∈ q, c ≠ '<' := hpay.2.2
      have hq0 : q ≠ [] := fun he => hpay.1 (by rw [he])
      rcases q with _ | ⟨c, rest⟩
      · exact absurd rfl hq0
      · exact parse_serialized n [] (c :: rest) none (some (c :: rest)) hn2 (by simp)
          (Or.inl ⟨rfl, rfl⟩) hq3 (Or.inr ⟨c, rest, rfl, by rw [hq2]⟩)
  · have hl0 : l ≠ [] := fun he => hattr.1 (by rw [he])
    have hnd : (l.map Prod.fst).Nodup := hattr.2.1
    have hkv : ∀ kv ∈ l, goodKey kv.1 ∧ goodVal kv.2 := hattr.2.2
    rcases l with _ | ⟨kv, tl⟩
    · exact absurd rfl hl0
    have hAshape : attrClause (kv :: tl)
        = ' ' :: (kv.1 ++ '=' :: '"' :: (kv.2 ++ '"' :: attrClause tl)) := by
      rw [attrClause_shape]
      simp
    have hAc : ∀ c ∈ attrClause (kv :: tl), c ≠ '<' ∧ c ≠ '>' := attrClause_chars _ hkv
    have hbuild : buildAttrs (xmlCaptures
        (kv.1 ++ '=' :: '"' :: (kv.2 ++ '"' :: attrClause tl))) = kv :: tl := by
      unfold xmlCaptures
      rw [captures_attrStr kv tl hkv _ (by omega)]
      exact buildAttrs_caps kv tl hkv hnd
    have hAh : (attrClause (kv :: tl) = [] ∧ (some (kv :: tl) :
          Option (List (Str × Str))) = none) ∨
        (∃ b, attrClause (kv :: tl) = ' ' :: b ∧ (some (kv :: tl) :
          Option (List (Str × Str))) = some (buildAttrs (xmlCaptures b))) :=
      Or.inr ⟨_, hAshape, by rw [hbuild]⟩
    rcases pay with _ | q
    · exact parse_serialized n (attrClause (kv :: tl)) [] (some (kv :: tl)) none hn2 hAc hAh
        (by simp) (Or.inl ⟨rfl, rfl⟩)
    · have hq2 : trimChars q = q := hpay.2.1
      have hq3 : ∀ c ∈ q, c ≠ '<' := hpay.2.2
      have hq0 : q ≠ [] := fun he => hpay.1 (by rw [he])
      rcases q with _ | ⟨c, rest⟩
      · exact absurd rfl hq0
      · exact parse_serialized n (attrClause (kv :: tl)) (c :: rest) (some (kv :: tl))
          (some (c :: rest)) hn2 hAc hAh hq3 (Or.inr ⟨c, rest, rfl, by rw [hq2]⟩)

/-- Witness for the amended claim C5 at a concrete invocation. -/
theorem claim_C5_witness :
    RoundTrippable ⟨"a".toList, some [("k".toList, "v".toList)], some "p".toList⟩
    ∧ parse_model_response (serialize_invocation
        ⟨"a".toList, some [("k".toList, "v".toList)], some "p".toList⟩)
      = .ok [⟨"a".toList, some [("k".toList, "v".toList)], some "p".toList⟩] :=
  ⟨by decide, claim_C5_roundtrip _ (by decide)⟩

end Zippo
